import Mathlib

/-!
Shallow embedding of the typing-racer game core (a pygame project) in Lean 4,
together with theorems settling the specification claims.

Conventions of the embedding:
* Python `float` values are modelled by `ℚ` (the code only performs exact
  decimal arithmetic on them: additions, multiplications and `min`/`max`).
* Python strings are modelled by `String` where we only measure or compare
  them, and by `List Char` where the code edits them character by character.
* Randomness (`random.choice`) is modelled by exposing the pool of words the
  call can draw from, and by passing the word a spawn would produce as an
  explicit oracle argument.
* Rendering, audio playback, the real-time clock and file I/O are external
  collaborators; sounds are modelled as a list of cue names returned by the
  input handler, and wall-clock values are explicit parameters.
-/

/- ===================== Car (src/car.py) ===================== -/

/-- Screen geometry constants for the 1024×768 window created in
`TypingRacerGame.__init__`, as used by `Car.__init__`. -/
def trackStartX : ℚ := 50

def trackEndX : ℚ := 1024 - 150

def trackLength : ℚ := trackEndX - trackStartX

/-- The mutable state of `Car`.  Colour fields and the constant `y`
coordinate are omitted (never read by the game logic). -/
structure Car where
  position : ℚ
  x : ℚ
  bounce : ℚ
  wheelRotation : ℚ
  speed : ℚ
  boostTimer : ℚ
  penaltyTimer : ℚ
deriving Repr, DecidableEq

/-- `Car.__init__`: progress 0, parked at the start of the track. -/
def Car.init : Car :=
  { position := 0, x := trackStartX, bounce := 0, wheelRotation := 0,
    speed := 0, boostTimer := 0, penaltyTimer := 0 }

/-- `Car.reset`. -/
def Car.reset (_c : Car) : Car := Car.init

/-- `Car.move_by_progress`. -/
def Car.move_by_progress (c : Car) (progress_increment : ℚ) : Car :=
  let old_position := c.position
  let pos := min 1 (c.position + progress_increment)
  { c with
    position := pos
    x := trackStartX + pos * trackLength
    speed := (pos - old_position) * 100
    bounce := if progress_increment > 0 then min (c.bounce + 1/2) 2 else c.bounce }

/-- `Car.apply_boost`: a 5% progress boost plus a 1-second visual timer. -/
def Car.apply_boost (c : Car) : Car :=
  { c.move_by_progress (5/100) with boostTimer := 1 }

/-- `Car.apply_penalty`: purely cosmetic, only sets a timer. -/
def Car.apply_penalty (c : Car) : Car :=
  { c with penaltyTimer := 1/2 }

/-- `Car.get_progress`. -/
def Car.get_progress (c : Car) : ℚ := c.position

/-- `Car.has_finished`. -/
def Car.has_finished (c : Car) : Bool := 1 ≤ c.position

/-- `Car.update`: per-frame animation decay; does not touch `position`. -/
def Car.update (c : Car) (dt : ℚ) : Car :=
  let bounce := if c.bounce > 0 then max 0 (c.bounce - dt * 3) else c.bounce
  let wheelRotation :=
    if c.speed > 0 then
      let w := c.wheelRotation + c.speed * dt * 5
      if 360 ≤ w then w - 360 else w
    else c.wheelRotation
  let boostTimer := if c.boostTimer > 0 then max 0 (c.boostTimer - dt) else c.boostTimer
  let penaltyTimer := if c.penaltyTimer > 0 then max 0 (c.penaltyTimer - dt) else c.penaltyTimer
  { c with bounce := bounce, wheelRotation := wheelRotation,
           boostTimer := boostTimer, penaltyTimer := penaltyTimer,
           speed := c.speed * (95/100) }

/-- The round invariant of the car: progress stays in `[0, 1]`. -/
def Car.inv (c : Car) : Prop := 0 ≤ c.position ∧ c.position ≤ 1

instance (c : Car) : Decidable c.inv := by unfold Car.inv; infer_instance

/- ===================== Word source (src/words.py) ===================== -/

/-- `WordManager.easy_words`. -/
def easy_words : List String :=
  ["cat", "dog", "sun", "run", "fun", "car", "big", "red", "hot", "cold",
   "yes", "no", "go", "up", "down", "happy", "fast", "slow", "good", "bad",
   "help", "jump", "play", "read", "sing", "walk", "talk", "look", "find", "make"]

/-- `WordManager.normal_words`. -/
def normal_words : List String :=
  ["house", "water", "computer", "keyboard", "mouse", "typing", "racing", "speed",
   "challenge", "victory", "practice", "improve", "accuracy", "champion", "winner",
   "puzzle", "adventure", "journey", "explore", "discover", "create", "design",
   "develop", "progress", "achieve", "succeed", "complete", "master", "expert"]

/-- `WordManager.hard_words` (the source list repeats "extraordinary"). -/
def hard_words : List String :=
  ["extraordinary", "magnificent", "programming", "development", "architecture",
   "infrastructure", "optimization", "performance", "complexity", "algorithm",
   "implementation", "visualization", "transformation", "revolutionary",
   "technological", "sophisticated", "comprehensive", "extraordinary",
   "professional", "responsibility", "concentration", "determination",
   "perseverance", "accomplishment", "achievement", "excellence"]

/-- `WordManager.get_word_list`, as a function of `max_word_length`. -/
def get_word_list (max_word_length : ℕ) : List String :=
  if max_word_length ≤ 4 then easy_words
  else if max_word_length ≤ 7 then easy_words ++ normal_words
  else easy_words ++ normal_words ++ hard_words

/-- `WordManager.get_next_word` draws uniformly (`random.choice`) from this
pool: the length-filtered word list, or the whole easy list if the filter
leaves nothing. -/
def get_next_word_pool (max_word_length : ℕ) : List String :=
  let valid_words := (get_word_list max_word_length).filter
    (fun w => w.length ≤ max_word_length)
  if valid_words = [] then easy_words else valid_words

/- ===================== Game round state (src/game.py) ===================== -/

/-- The per-round state kept by `TypingRacerGame` (the fields read or
written by `handle_game_input` / `complete_word`), plus a `game_over` flag
standing for the transition to the GAME_OVER screen in `win_game`. -/
structure GameSt where
  current_word : List Char
  typed_text : List Char
  chars_typed : ℕ
  chars_correct : ℕ
  score : ℕ
  combo : ℕ
  words_completed : ℕ
  car : Car
  game_over : Bool
deriving Repr, DecidableEq

/-- The state right after `start_game` + `spawn_new_word` handed out the
word `w`: all counters zero, empty typed text, car reset. -/
def GameSt.fresh (w : List Char) : GameSt :=
  { current_word := w, typed_text := [], chars_typed := 0, chars_correct := 0,
    score := 0, combo := 0, words_completed := 0, car := Car.init,
    game_over := false }

/-- `TypingRacerGame.complete_word`.  The word a subsequent
`spawn_new_word` would draw is passed as the oracle `next_word`. -/
def complete_word (st : GameSt) (next_word : List Char) : GameSt :=
  let words_completed := st.words_completed + 1
  let combo := st.combo + 1
  let word_length := st.current_word.length
  let base_score := word_length * 10
  let combo_bonus := min (combo * 5) 100
  let total_bonus := base_score + combo_bonus
  let score := st.score + total_bonus
  let car := st.car.apply_boost
  let st' := { st with words_completed := words_completed, combo := combo,
                       score := score, car := car }
  if car.has_finished then { st' with game_over := true }
  else { st' with current_word := next_word, typed_text := [] }

/-- A key press delivered to `handle_game_input`: backspace, or a key with
the given `event.unicode` character. -/
inductive GKey where
  | backspace
  | chr (c : Char)
deriving Repr, DecidableEq

/-- `str.isprintable()` restricted to the ASCII range the game uses
(printable ASCII is exactly the range 0x20–0x7e). -/
def isPrintableChar (c : Char) : Bool := 0x20 ≤ c.toNat && c.toNat ≤ 0x7e

/-- Sound cue names, so the handler can report which classification fired. -/
def snd_backspace : String := "backspace"
def snd_correct : String := "correct"
def snd_error : String := "error"
def snd_word_complete : String := "word_complete"

/-- `TypingRacerGame.handle_game_input`, returning the new state and the
sound cues played.  `current_word[len:len+1] if len < len(word) else ''`
followed by an equality test against a single character is modelled by
`List.get?`: the empty slice compares unequal to every character. -/
def handle_game_input (st : GameSt) (key : GKey) (next_word : List Char) :
    GameSt × List String :=
  match key with
  | GKey.backspace =>
      if st.typed_text ≠ [] then
        ({ st with typed_text := st.typed_text.dropLast }, [snd_backspace])
      else (st, [])
  | GKey.chr u =>
      if isPrintableChar u = true ∧ u ≠ ' ' then
        let c := u.toLower
        let target := st.current_word.get? st.typed_text.length
        let st1 := { st with chars_typed := st.chars_typed + 1 }
        match target with
        | some t =>
            if c = t.toLower then
              let typed := st1.typed_text ++ [c]
              let st2 := { st1 with typed_text := typed,
                                    chars_correct := st1.chars_correct + 1 }
              let progressFrac : ℚ :=
                (typed.length : ℚ) / (st2.current_word.length : ℚ)
              let st3 := { st2 with
                car := st2.car.move_by_progress (progressFrac * (2/100)) }
              if typed.length = st3.current_word.length then
                (complete_word st3 next_word, [snd_correct, snd_word_complete])
              else (st3, [snd_correct])
            else ({ st1 with car := st1.car.apply_penalty }, [snd_error])
        | none => ({ st1 with car := st1.car.apply_penalty }, [snd_error])
      else (st, [])

/-- Run a sequence of key presses through `handle_game_input` (the main
loop only feeds input to it while the state is PLAYING, i.e. before
`win_game`); each press carries the oracle word a completion would spawn. -/
def run_inputs (st : GameSt) : List (GKey × List Char) → GameSt
  | [] => st
  | (k, nw) :: rest =>
      if st.game_over then run_inputs st rest
      else run_inputs (handle_game_input st k nw).1 rest

/-- The typing invariant: the typed text is the lower-cased image of the
matching prefix of the current word (hence a case-insensitive prefix). -/
def typed_inv (st : GameSt) : Prop :=
  st.typed_text = (st.current_word.take st.typed_text.length).map Char.toLower

/- ===================== Leaderboard (src/leaderboard.py) ===================== -/

/-- A validated score entry as stored in `LeaderboardManager.scores`. -/
structure ScoreRecord where
  name : List Char
  score : ℤ
  wpm : ℚ
  accuracy : ℚ
  difficulty : String
  date : String
  timestamp : ℚ
deriving Repr, DecidableEq

/-- The descending-score order used by `scores.sort(key=..., reverse=True)`. -/
def score_desc (a b : ScoreRecord) : Prop := b.score ≤ a.score

instance : DecidableRel score_desc := fun a b => by
  unfold score_desc; infer_instance

instance : IsTotal ScoreRecord score_desc :=
  ⟨fun a b => le_total b.score a.score⟩

instance : IsTrans ScoreRecord score_desc :=
  ⟨fun _ _ _ h1 h2 => le_trans h2 h1⟩

/-- `LeaderboardManager.max_entries`. -/
def max_entries : ℕ := 100

/-- The in-memory state of `LeaderboardManager` (the backing file is an
external collaborator; `save_scores` is a no-op on this state). -/
structure Leaderboard where
  scores : List ScoreRecord
deriving Repr, DecidableEq

/-- Python `str.strip()` on a character list. -/
def py_strip (s : List Char) : List Char :=
  ((s.dropWhile Char.isWhitespace).reverse.dropWhile Char.isWhitespace).reverse

/-- The fallback player name. -/
def anonymous_name : List Char := "Anonymous".data

/-- The name normalisation at the top of `LeaderboardManager.add_score`:
`if not name or not name.strip(): name = "Anonymous"` then
`name = name.strip()[:20]`. -/
def add_score_name (name : List Char) : List Char :=
  let name1 := if name = [] ∨ py_strip name = [] then anonymous_name else name
  (py_strip name1).take 20

/-- The entry dict built by `add_score` (`date` and `timestamp` come from
the wall clock, passed explicitly). -/
def mk_score_entry (name : List Char) (score : ℤ) (wpm accuracy : ℚ)
    (difficulty date : String) (timestamp : ℚ) : ScoreRecord :=
  { name := add_score_name name, score := score, wpm := wpm,
    accuracy := accuracy, difficulty := difficulty, date := date,
    timestamp := timestamp }

/-- `LeaderboardManager.add_score`: append, stable-sort by score descending,
trim to `max_entries`, report whether the entry landed in the top 10
(`get_scores(limit=10)` is `scores[:10]` when no difficulty filter is
given). -/
def Leaderboard.add_score (lb : Leaderboard) (name : List Char) (score : ℤ)
    (wpm accuracy : ℚ) (difficulty date : String) (timestamp : ℚ) :
    Leaderboard × Bool :=
  let entry := mk_score_entry name score wpm accuracy difficulty date timestamp
  let scores1 := lb.scores ++ [entry]
  let scores2 := List.insertionSort score_desc scores1
  let scores3 := scores2.take max_entries
  (⟨scores3⟩, decide (entry ∈ scores3.take 10))

/-- A raw (not yet validated) score dict, with one field per key that
`_validate_scores` inspects; `none` means the key is absent.  Numeric
fields are already numbers, so the `int()`/`float()` coercions of the
source cannot fail in this model. -/
structure RawScore where
  name : Option (List Char)
  score : Option ℤ
  wpm : Option ℚ
  wmp : Option ℚ
  accuracy : Option ℚ
  difficulty : Option String
  date : Option String
  timestamp : Option ℚ
deriving Repr, DecidableEq

/-- The default difficulty filled in by `_validate_scores`. -/
def default_difficulty : String := "normal"

/-- The body of the `_validate_scores` loop for one entry: rename a legacy
`wmp` key to `wpm`, check the required fields, fill in missing optional
fields (clock values passed explicitly), or drop the entry. -/
def validate_one (now_date : String) (now_ts : ℚ) (r0 : RawScore) :
    Option ScoreRecord :=
  let r := match r0.wmp, r0.wpm with
           | some v, none => { r0 with wpm := some v, wmp := none }
           | _, _ => r0
  let ok := match r.wpm, r.wmp with
            | some _, none => r.name.isSome && r.score.isSome && r.accuracy.isSome
            | _, _ => r.name.isSome && r.score.isSome && r.wmp.isSome
                        && r.accuracy.isSome
  if ok then
    match r.name, r.score, r.wpm, r.accuracy with
    | some n, some s, some w, some a =>
        some { name := n, score := s, wpm := w, accuracy := a,
               difficulty := r.difficulty.getD default_difficulty,
               date := r.date.getD now_date,
               timestamp := r.timestamp.getD now_ts }
    | _, _, _, _ => none
  else none

/-- `LeaderboardManager._validate_scores`. -/
def validate_scores (now_date : String) (now_ts : ℚ) (rs : List RawScore) :
    List ScoreRecord :=
  rs.filterMap (validate_one now_date now_ts)

/-- The deduplication key used by `import_scores`. -/
def dedup_key (s : ScoreRecord) : List Char × ℤ × ℚ × ℚ :=
  (s.name, s.score, s.wpm, s.timestamp)

/-- The `seen`-set deduplication loop of `import_scores`: keep the first
entry for every key. -/
def dedup_scores (seen : List (List Char × ℤ × ℚ × ℚ)) :
    List ScoreRecord → List ScoreRecord
  | [] => []
  | s :: rest =>
      if dedup_key s ∈ seen then dedup_scores seen rest
      else s :: dedup_scores (dedup_key s :: seen) rest

/-- `LeaderboardManager.import_scores` on an already-decoded JSON list (the
JSON parse failure paths return `False` before touching the state and are
external to this model). -/
def Leaderboard.import_scores (lb : Leaderboard) (imported : List RawScore)
    (merge : Bool) (now_date : String) (now_ts : ℚ) : Leaderboard × Bool :=
  let valid_scores := validate_scores now_date now_ts imported
  if merge then
    let all := lb.scores ++ valid_scores
    let unique_scores := dedup_scores [] all
    let sorted := List.insertionSort score_desc unique_scores
    (⟨sorted.take max_entries⟩, true)
  else
    (⟨valid_scores⟩, true)

/- ===================== Settings merge (src/settings.py) ===================== -/

/-- A JSON-ish settings value: a primitive leaf (payload kept opaque as a
string) or a nested object, i.e. a Python dict in insertion order. -/
inductive JVal where
  | prim (s : String)
  | obj (entries : List (String × JVal))
deriving Repr

/-- Dict lookup (first matching key). -/
def jlookup : List (String × JVal) → String → Option JVal
  | [], _ => none
  | (k, v) :: rest, key => if k = key then some v else jlookup rest key

/-- Dict assignment to an existing key: replace the first binding, keep
insertion order (Python `result[key] = value` for a present key). -/
def jupdate : List (String × JVal) → String → JVal → List (String × JVal)
  | [], _, _ => []
  | (k, v) :: rest, key, nv =>
      if k = key then (k, nv) :: rest else (k, v) :: jupdate rest key nv

/-- The entries of an object value ( `[]` for a primitive). -/
def objEntries : JVal → List (String × JVal)
  | JVal.obj e => e
  | JVal.prim _ => []

/-- The entries of an optional object value. -/
def objEntriesO : Option JVal → List (String × JVal)
  | some (JVal.obj e) => e
  | _ => []

/-- The per-key decision of `_merge_settings`, with the recursively merged
sub-object passed in as `sub`: when both the present default value and the
loaded value are dicts the merged sub-dict is assigned, otherwise the
loaded value overrides, and an unknown key is appended. -/
def merge_decide (defaults : List (String × JVal)) (key : String)
    (value : JVal) (sub : List (String × JVal)) : List (String × JVal) :=
  match jlookup defaults key, value with
  | some (JVal.obj _), JVal.obj _ => jupdate defaults key (JVal.obj sub)
  | some _, _ => jupdate defaults key value
  | none, _ => defaults ++ [(key, value)]

/-- `SettingsManager._merge_settings`: start from a copy of `defaults` and
fold the `loaded` items over it; a key whose value is a dict on both sides
is merged recursively, otherwise the loaded value wins, and unknown keys
are appended.  (The recursive sub-merge is computed up front and handed to
`merge_decide`, which uses it exactly in the dict-with-dict case the
source recurses in; in every other case it is discarded unused.) -/
def merge_settings (defaults : List (String × JVal)) :
    List (String × JVal) → List (String × JVal)
  | [] => defaults
  | (key, value) :: rest =>
      let sub := merge_settings (objEntriesO (jlookup defaults key))
        (objEntries value)
      merge_settings (merge_decide defaults key value sub) rest
termination_by l => sizeOf l
decreasing_by
  all_goals first
  | (cases value with
     | prim s => simp_wf; simp [objEntries]; try omega
     | obj e => simp_wf; simp [objEntries]; try omega)
  | (simp_wf; try omega)

/- ===================== Helper lemmas ===================== -/

theorem Car.move_by_progress_position (c : Car) (inc : ℚ) :
    (c.move_by_progress inc).position = min 1 (c.position + inc) := rfl

theorem Car.apply_boost_position (c : Car) :
    c.apply_boost.position = min 1 (c.position + 5/100) := rfl

theorem Car.apply_penalty_position (c : Car) :
    c.apply_penalty.position = c.position := rfl

theorem Car.update_position (c : Car) (dt : ℚ) :
    (c.update dt).position = c.position := rfl

/- ===================== Claim C5 ===================== -/

/-- Claim C5: the car's progress always lies in `[0, 1]` (it does so
initially, and every round operation preserves the bounds); it is
non-decreasing under `move_by_progress` with a non-negative increment,
under `apply_boost`, `apply_penalty` and `update`; `reset` sets it to 0;
and `has_finished` holds exactly when progress is at least 1. -/
theorem c5_progress_invariant :
    Car.init.inv ∧
    ∀ c : Car, c.inv →
      (∀ inc : ℚ, 0 ≤ inc →
        c.position ≤ (c.move_by_progress inc).position ∧ (c.move_by_progress inc).inv) ∧
      (c.position ≤ c.apply_boost.position ∧ c.apply_boost.inv) ∧
      (c.apply_penalty.position = c.position ∧ c.apply_penalty.inv) ∧
      (∀ dt : ℚ, (c.update dt).position = c.position ∧ (c.update dt).inv) ∧
      c.reset.position = 0 ∧
      (c.has_finished = true ↔ 1 ≤ c.position) := by
  constructor
  · norm_num [Car.inv, Car.init]
  intro c hc
  obtain ⟨h0, h1⟩ := hc
  refine ⟨?_, ?_, ?_, ?_, ?_, ?_⟩
  · intro inc hinc
    simp only [Car.inv, Car.move_by_progress_position]
    refine ⟨le_min h1 (by linarith), le_min (by norm_num) (by linarith), min_le_left _ _⟩
  · simp only [Car.inv, Car.apply_boost_position]
    refine ⟨le_min h1 (by linarith), le_min (by norm_num) (by linarith), min_le_left _ _⟩
  · simp only [Car.inv, Car.apply_penalty_position]
    exact ⟨trivial, h0, h1⟩
  · intro dt
    simp only [Car.inv, Car.update_position]
    exact ⟨trivial, h0, h1⟩
  · rfl
  · simp [Car.has_finished]

/-- Witness for C5 at the initial car and increment 1/2. -/
theorem c5_progress_invariant_witness :
    Car.init.position ≤ (Car.init.move_by_progress (1/2)).position ∧
    (Car.init.move_by_progress (1/2)).inv := by
  have h := c5_progress_invariant
  exact (h.2 Car.init h.1).1 (1/2) (by norm_num)

/- ===================== Claim C6 ===================== -/

/-- Claim C6: completing a word of length `L` with combo `C` beforehand
adds exactly `L*10 + min((C+1)*5, 100)` to the score and increments both
`words_completed` and `combo` by one. -/
theorem c6_complete_word_scoring (st : GameSt) (next_word : List Char) :
    (complete_word st next_word).score
      = st.score + (st.current_word.length * 10 + min ((st.combo + 1) * 5) 100) ∧
    (complete_word st next_word).words_completed = st.words_completed + 1 ∧
    (complete_word st next_word).combo = st.combo + 1 := by
  by_cases h : st.car.apply_boost.has_finished = true <;>
    simp [complete_word, h]

/- ===================== Claim C10 ===================== -/

/-- Claim C10: during play a space character is ignored entirely — the
state is returned unchanged (typed text, counters, score, combo, car) and
no sound cue (neither correct nor error) is emitted. -/
theorem c10_space_ignored (st : GameSt) (next_word : List Char) :
    handle_game_input st (GKey.chr ' ') next_word = (st, []) := by
  simp [handle_game_input]

/- ===================== Claim C9 ===================== -/

/-- Claim C9: `add_score` stores the player name stripped of surrounding
whitespace and truncated to 20 characters, substituting "Anonymous" when
the given name is empty or whitespace-only (`py_strip name = []`). -/
theorem c9_name_normalisation (name : List Char) :
    (add_score_name name).length ≤ 20 ∧
    add_score_name name
      = (if py_strip name = [] then anonymous_name else (py_strip name).take 20) := by
  by_cases h : py_strip name = []
  · have hcond : (name = [] ∨ py_strip name = []) := Or.inr h
    rw [add_score_name, if_pos hcond, if_pos h]
    exact ⟨by decide, by decide⟩
  · have hne : name ≠ [] := by
      intro hnil
      exact h (by rw [hnil]; rfl)
    have hcond : ¬(name = [] ∨ py_strip name = []) := by
      rintro (h1 | h2)
      · exact hne h1
      · exact h h2
    rw [add_score_name, if_neg hcond, if_neg h]
    constructor
    · rw [List.length_take]
      exact min_le_left _ _
    · rfl

/- ===================== Claim C3 ===================== -/

/-- Claim C3 (amended): `get_next_word` always has a word to return (its
pool is never empty, falling back to the full easy list), and whenever
`max_length ≥ 2` every word it can return has length at most `max_length`
(for `max_length = 1` the filtered pool is empty — the shortest easy word
has two characters — and the unfiltered easy-list fallback can return
longer words). -/
theorem c3_next_word_amended :
    (∀ m : ℕ, get_next_word_pool m ≠ []) ∧
    (∀ m : ℕ, 2 ≤ m → ∀ w ∈ get_next_word_pool m, w.length ≤ m) := by
  constructor
  · intro m
    rw [get_next_word_pool]
    split
    · decide
    · assumption
  · intro m hm w hw
    have hgo : ("go" : String) ∈ get_word_list m := by
      rw [get_word_list]
      split
      · decide
      · split
        · exact List.mem_append_left _ (by decide)
        · exact List.mem_append_left _ (List.mem_append_left _ (by decide))
    have hlen : ("go" : String).length = 2 := rfl
    have hmem : ("go" : String) ∈
        (get_word_list m).filter (fun w => w.length ≤ m) := by
      refine List.mem_filter.mpr ⟨hgo, ?_⟩
      rw [hlen]
      exact decide_eq_true hm
    have hne : (get_word_list m).filter (fun w => w.length ≤ m) ≠ [] :=
      List.ne_nil_of_mem hmem
    rw [get_next_word_pool] at hw
    simp only [if_neg hne] at hw
    exact of_decide_eq_true (List.mem_filter.mp hw).2

/-- Witness for C3 at `max_length = 6` (the normal difficulty). -/
theorem c3_next_word_amended_witness :
    get_next_word_pool 6 ≠ [] ∧
    ∀ w ∈ get_next_word_pool 6, w.length ≤ 6 := by
  exact ⟨c3_next_word_amended.1 6, c3_next_word_amended.2 6 (by norm_num)⟩

/-- Counterexample for C3 as stated: with `max_length = 1` the filtered
pool is empty, the fallback is the whole easy list, and e.g. "cat"
(length 3) can be returned even though `3 > 1`. -/
theorem c3_counterexample :
    ("cat" : String) ∈ get_next_word_pool 1 ∧ ¬ (("cat" : String).length ≤ 1) := by
  decide

/- ===== Branch characterisations of handle_game_input ===== -/

theorem handle_char_match_step (st : GameSt) (u t : Char) (nw : List Char)
    (hp : isPrintableChar u = true) (hsp : u ≠ ' ')
    (ht : st.current_word.get? st.typed_text.length = some t)
    (heq : u.toLower = t.toLower)
    (hinc : st.typed_text.length + 1 ≠ st.current_word.length) :
    handle_game_input st (GKey.chr u) nw =
      ({ st with typed_text := st.typed_text ++ [u.toLower],
                 chars_typed := st.chars_typed + 1,
                 chars_correct := st.chars_correct + 1,
                 car := st.car.move_by_progress
                   (((st.typed_text.length + 1 : ℚ) / (st.current_word.length : ℚ)) * (2/100)) },
       [snd_correct]) := by
  simp only [handle_game_input, hp, hsp, ne_eq, not_false_iff, and_self, if_true, ht, heq,
    if_pos, List.length_append, List.length_cons, List.length_nil]
  simp [hinc]

theorem handle_char_match_complete (st : GameSt) (u t : Char) (nw : List Char)
    (hp : isPrintableChar u = true) (hsp : u ≠ ' ')
    (ht : st.current_word.get? st.typed_text.length = some t)
    (heq : u.toLower = t.toLower)
    (hfin : st.typed_text.length + 1 = st.current_word.length) :
    handle_game_input st (GKey.chr u) nw =
      (complete_word
        { st with typed_text := st.typed_text ++ [u.toLower],
                  chars_typed := st.chars_typed + 1,
                  chars_correct := st.chars_correct + 1,
                  car := st.car.move_by_progress
                    (((st.typed_text.length + 1 : ℚ) / (st.current_word.length : ℚ)) * (2/100)) }
        nw,
       [snd_correct, snd_word_complete]) := by
  simp only [handle_game_input, hp, hsp, ne_eq, not_false_iff, and_self, if_true, ht, heq,
    if_pos, List.length_append, List.length_cons, List.length_nil]
  simp [hfin]
  have hc : ((st.typed_text.length : ℚ) + 1) = (st.current_word.length : ℚ) := by
    exact_mod_cast hfin
  rw [hc]

theorem handle_char_mismatch (st : GameSt) (u : Char) (nw : List Char)
    (hp : isPrintableChar u = true) (hsp : u ≠ ' ')
    (hmis : ∀ t, st.current_word.get? st.typed_text.length = some t →
      u.toLower ≠ t.toLower) :
    handle_game_input st (GKey.chr u) nw =
      ({ st with chars_typed := st.chars_typed + 1,
                 car := st.car.apply_penalty }, [snd_error]) := by
  simp only [handle_game_input, hp, hsp, ne_eq, not_false_iff, and_self, if_true]
  cases hT : st.current_word.get? st.typed_text.length with
  | none => simp
  | some t => simp [hmis t hT]

theorem handle_backspace_typed (st : GameSt) (nw : List Char) :
    handle_game_input st GKey.backspace nw =
      (if st.typed_text = [] then (st, [])
       else ({ st with typed_text := st.typed_text.dropLast }, [snd_backspace])) := by
  by_cases h : st.typed_text = [] <;> simp [handle_game_input, h]

theorem handle_nonprintable (st : GameSt) (u : Char) (nw : List Char)
    (h : ¬(isPrintableChar u = true ∧ u ≠ ' ')) :
    handle_game_input st (GKey.chr u) nw = (st, []) := by
  simp only [handle_game_input, if_neg h]

/- ===================== Claim C2 ===================== -/

/-- Claim C2 (amended): a printable non-space input that does not match the
next expected character increments `chars_typed`, leaves `chars_correct`,
the typed prefix and the combo counter unchanged (the source does not reset
the combo on a typing error), and emits the error cue; the cited scenario
(typing 'x' against "cat" in a fresh round) yields `chars_typed = 1`,
`chars_correct = 0`, an empty prefix, and `combo = 0` only because the
round started with combo 0. -/
theorem c2_wrong_char_amended :
    (∀ (st : GameSt) (u : Char) (nw : List Char),
      isPrintableChar u = true → u ≠ ' ' →
      (∀ t, st.current_word.get? st.typed_text.length = some t →
        u.toLower ≠ t.toLower) →
      (handle_game_input st (GKey.chr u) nw).1.chars_typed = st.chars_typed + 1 ∧
      (handle_game_input st (GKey.chr u) nw).1.chars_correct = st.chars_correct ∧
      (handle_game_input st (GKey.chr u) nw).1.combo = st.combo ∧
      (handle_game_input st (GKey.chr u) nw).1.typed_text = st.typed_text ∧
      (handle_game_input st (GKey.chr u) nw).2 = [snd_error]) ∧
    ((handle_game_input (GameSt.fresh "cat".data) (GKey.chr 'x') []).1.chars_typed = 1 ∧
     (handle_game_input (GameSt.fresh "cat".data) (GKey.chr 'x') []).1.chars_correct = 0 ∧
     (handle_game_input (GameSt.fresh "cat".data) (GKey.chr 'x') []).1.combo = 0 ∧
     (handle_game_input (GameSt.fresh "cat".data) (GKey.chr 'x') []).1.typed_text = []) := by
  constructor
  · intro st u nw hp hsp hmis
    rw [handle_char_mismatch st u nw hp hsp hmis]
    exact ⟨rfl, rfl, rfl, rfl, rfl⟩
  · decide

/-- Witness for C2, instantiating the general part at the cited scenario. -/
theorem c2_wrong_char_amended_witness :
    (handle_game_input (GameSt.fresh "cat".data) (GKey.chr 'x') []).1.chars_typed
      = (GameSt.fresh "cat".data).chars_typed + 1 ∧
    (handle_game_input (GameSt.fresh "cat".data) (GKey.chr 'x') []).2 = [snd_error] := by
  have hmis : ∀ t, (GameSt.fresh "cat".data).current_word.get?
      (GameSt.fresh "cat".data).typed_text.length = some t →
      Char.toLower 'x' ≠ t.toLower := by
    intro t ht
    have : t = 'c' := by
      simpa [GameSt.fresh] using ht.symm
    rw [this]
    decide
  have h := c2_wrong_char_amended.1 (GameSt.fresh "cat".data) 'x' []
    (by decide) (by decide) hmis
  exact ⟨h.1, h.2.2.2.2⟩

/-- Counterexample for C2 as stated: in a state where the combo is 1
(say one word already completed), a wrong character leaves the combo at 1
instead of resetting it to zero. -/
theorem c2_counterexample :
    (handle_game_input { GameSt.fresh "cat".data with combo := 1 }
        (GKey.chr 'x') []).1.combo = 1 ∧
    ¬ (handle_game_input { GameSt.fresh "cat".data with combo := 1 }
        (GKey.chr 'x') []).1.combo = 0 := by
  decide

/- ===================== Claim C4 ===================== -/

theorem List.take_succ_get? (l : List Char) (n : ℕ) :
    l.take (n+1) = l.take n ++ (l.get? n).toList := by
  rw [List.get?_eq_getElem?]
  exact List.take_succ

theorem typed_inv_le (st : GameSt) (h : typed_inv st) :
    st.typed_text.length ≤ st.current_word.length := by
  have hlen : st.typed_text.length
      = (st.current_word.take st.typed_text.length).length := by
    conv_lhs => rw [h]
    rw [List.length_map]
  rw [hlen]
  exact (List.take_sublist _ _).length_le

theorem typed_inv_complete (st : GameSt) (nw : List Char) (h : typed_inv st) :
    typed_inv (complete_word st nw) := by
  by_cases hdone : st.car.apply_boost.has_finished = true
  · simp only [complete_word, hdone, if_true]
    unfold typed_inv at h ⊢
    exact h
  · simp only [complete_word, hdone, if_false]
    unfold typed_inv
    simp

theorem typed_inv_append (st : GameSt) (t : Char)
    (h : typed_inv st) (hT : st.current_word.get? st.typed_text.length = some t) :
    st.typed_text ++ [t.toLower]
      = (st.current_word.take (st.typed_text.length + 1)).map Char.toLower := by
  rw [List.take_succ_get?, hT]
  simp only [Option.toList_some, List.map_append, List.map_cons, List.map_nil]
  rw [← h]

theorem typed_inv_dropLast (st : GameSt) (h : typed_inv st) :
    st.typed_text.dropLast
      = (st.current_word.take (st.typed_text.length - 1)).map Char.toLower := by
  have hn : st.typed_text.length ≤ st.current_word.length := typed_inv_le st h
  conv_lhs => rw [h]
  rw [← List.map_dropLast, List.dropLast_eq_take, List.length_take, List.take_take]
  rw [min_eq_left hn, min_eq_left (Nat.sub_le _ _)]

theorem typed_inv_step (st : GameSt) (k : GKey) (nw : List Char)
    (h : typed_inv st) : typed_inv (handle_game_input st k nw).1 := by
  cases k with
  | backspace =>
      rw [handle_backspace_typed]
      by_cases he : st.typed_text = []
      · simpa [he] using h
      · rw [if_neg he]
        unfold typed_inv at h ⊢
        dsimp only
        rw [List.length_dropLast]
        exact typed_inv_dropLast st h
  | chr u =>
      by_cases hcond : isPrintableChar u = true ∧ u ≠ ' '
      · obtain ⟨hp, hsp⟩ := hcond
        cases hT : st.current_word.get? st.typed_text.length with
        | none =>
            rw [handle_char_mismatch st u nw hp hsp
              (by intro t ht; rw [hT] at ht; cases ht)]
            unfold typed_inv at h ⊢
            exact h
        | some t =>
            by_cases heq : u.toLower = t.toLower
            · have happ : st.typed_text ++ [u.toLower]
                  = (st.current_word.take (st.typed_text.length + 1)).map Char.toLower := by
                rw [heq]
                exact typed_inv_append st t h hT
              by_cases hfin : st.typed_text.length + 1 = st.current_word.length
              · rw [handle_char_match_complete st u t nw hp hsp hT heq hfin]
                apply typed_inv_complete
                unfold typed_inv
                simp only [List.length_append, List.length_cons, List.length_nil]
                exact happ
              · rw [handle_char_match_step st u t nw hp hsp hT heq hfin]
                unfold typed_inv
                simp only [List.length_append, List.length_cons, List.length_nil]
                exact happ
            · rw [handle_char_mismatch st u nw hp hsp
                (by intro t' ht'; rw [hT] at ht'; injection ht' with hh; rw [← hh]; exact heq)]
              unfold typed_inv at h ⊢
              exact h
      · rw [handle_nonprintable st u nw hcond]
        exact h

theorem typed_inv_run (inputs : List (GKey × List Char)) :
    ∀ st : GameSt, typed_inv st → typed_inv (run_inputs st inputs) := by
  induction inputs with
  | nil => intro st h; exact h
  | cons p rest ih =>
      intro st h
      obtain ⟨k, nw⟩ := p
      rw [run_inputs]
      by_cases hover : st.game_over = true
      · rw [if_pos hover]
        exact ih st h
      · rw [if_neg hover]
        exact ih _ (typed_inv_step st k nw h)

/-- Claim C4: over any input sequence of printable characters and
backspaces, the typed text stays the lower-cased image of the matching
prefix of the current word (hence a case-insensitive prefix of it);
backspace removes exactly the last character (no-op when empty), a
mismatched character never changes the typed text, and a matching
character extends it by exactly that character (lower-cased). -/
theorem c4_typed_text_invariant :
    (∀ (w : List Char) (inputs : List (GKey × List Char)),
      typed_inv (run_inputs (GameSt.fresh w) inputs)) ∧
    (∀ (st : GameSt) (nw : List Char),
      (handle_game_input st GKey.backspace nw).1.typed_text
        = st.typed_text.dropLast) ∧
    (∀ (st : GameSt) (u : Char) (nw : List Char),
      isPrintableChar u = true → u ≠ ' ' →
      (∀ t, st.current_word.get? st.typed_text.length = some t →
        u.toLower ≠ t.toLower) →
      (handle_game_input st (GKey.chr u) nw).1.typed_text = st.typed_text) ∧
    (∀ (st : GameSt) (u t : Char) (nw : List Char),
      isPrintableChar u = true → u ≠ ' ' →
      st.current_word.get? st.typed_text.length = some t →
      u.toLower = t.toLower →
      st.typed_text.length + 1 ≠ st.current_word.length →
      (handle_game_input st (GKey.chr u) nw).1.typed_text
        = st.typed_text ++ [u.toLower]) := by
  refine ⟨?_, ?_, ?_, ?_⟩
  · intro w inputs
    exact typed_inv_run inputs (GameSt.fresh w) rfl
  · intro st nw
    rw [handle_backspace_typed]
    by_cases h : st.typed_text = []
    · simp [h]
    · rw [if_neg h]
  · intro st u nw hp hsp hmis
    rw [handle_char_mismatch st u nw hp hsp hmis]
  · intro st u t nw hp hsp hT heq hfin
    rw [handle_char_match_step st u t nw hp hsp hT heq hfin]

/-- Witness for C4 at the word "cat" with input 'c'. -/
theorem c4_typed_text_invariant_witness :
    typed_inv (run_inputs (GameSt.fresh "cat".data) [(GKey.chr 'c', [])]) ∧
    (handle_game_input (GameSt.fresh "cat".data) (GKey.chr 'c') []).1.typed_text
      = (GameSt.fresh "cat".data).typed_text ++ ['c'.toLower] := by
  refine ⟨c4_typed_text_invariant.1 "cat".data _, ?_⟩
  exact c4_typed_text_invariant.2.2.2 (GameSt.fresh "cat".data) 'c' 'c' []
    (by decide) (by decide) rfl rfl (by decide)

/- ===================== Claim C1 ===================== -/

theorem complete_word_fields (st : GameSt) (nw : List Char) :
    (complete_word st nw).score
      = st.score + (st.current_word.length * 10 + min ((st.combo + 1) * 5) 100) ∧
    (complete_word st nw).words_completed = st.words_completed + 1 ∧
    (complete_word st nw).combo = st.combo + 1 ∧
    (complete_word st nw).car.position = st.car.apply_boost.position := by
  by_cases h : st.car.apply_boost.has_finished = true <;>
    simp [complete_word, h]

theorem c1_sum_step (Lq jq : ℚ) (hL : Lq ≠ 0) :
    ((jq + 1)/Lq) * (2/100) + (Lq*(Lq+1) - (jq+1)*(jq+1+1))/(100*Lq)
      = (Lq*(Lq+1) - jq*(jq+1))/(100*Lq) := by
  field_simp
  ring

theorem c1_rest_nonneg (Lq jq : ℚ) (h0 : 0 ≤ jq) (h1 : jq ≤ Lq) (hL : 0 < Lq) :
    0 ≤ (Lq*(Lq+1) - jq*(jq+1))/(100*Lq) := by
  apply div_nonneg
  · nlinarith
  · positivity


theorem run_word_aux (w nw : List Char) :
    ∀ (r : List Char) (st : GameSt),
      st.game_over = false →
      st.current_word = w →
      List.drop st.typed_text.length w = r →
      r ≠ [] →
      (∀ c ∈ r, isPrintableChar c = true ∧ c ≠ ' ') →
      st.car.position + ((w.length : ℚ) * ((w.length : ℚ) + 1)
          - (st.typed_text.length : ℚ) * ((st.typed_text.length : ℚ) + 1))
            / (100 * (w.length : ℚ)) + 1/20 ≤ 1 →
      (run_inputs st (r.map (fun ch => (GKey.chr ch, nw)))).car.position
          = st.car.position + ((w.length : ℚ) * ((w.length : ℚ) + 1)
              - (st.typed_text.length : ℚ) * ((st.typed_text.length : ℚ) + 1))
                / (100 * (w.length : ℚ)) + 1/20 ∧
      (run_inputs st (r.map (fun ch => (GKey.chr ch, nw)))).words_completed
          = st.words_completed + 1 ∧
      (run_inputs st (r.map (fun ch => (GKey.chr ch, nw)))).score
          = st.score + (w.length * 10 + min ((st.combo + 1) * 5) 100) ∧
      (run_inputs st (r.map (fun ch => (GKey.chr ch, nw)))).combo
          = st.combo + 1 := by
  intro r
  induction r with
  | nil =>
      intro st _ _ _ hne _ _
      exact absurd rfl hne
  | cons ch r' ih =>
      intro st hover hword hdrop hne hprint hclamp
      obtain ⟨hp, hsp⟩ := hprint ch (List.mem_cons_self ch r')
      have hjlt : st.typed_text.length < w.length := by
        have hlen := congrArg List.length hdrop
        rw [List.length_drop] at hlen
        simp only [List.length_cons] at hlen
        omega
      have hT : st.current_word.get? st.typed_text.length = some ch := by
        rw [hword, List.get?_eq_getElem?, ← List.head?_drop, hdrop]
        rfl
      have hLq0 : (0:ℚ) < (w.length : ℚ) := by
        have : 0 < w.length := Nat.lt_of_le_of_lt (Nat.zero_le _) hjlt
        exact_mod_cast this
      rw [List.map_cons, run_inputs, if_neg (by rw [hover]; exact Bool.false_ne_true)]
      by_cases hfin : st.typed_text.length + 1 = st.current_word.length
      · -- the typed character completes the word
        have hr' : r' = [] := by
          have hlen := congrArg List.length hdrop
          rw [List.length_drop] at hlen
          simp only [List.length_cons] at hlen
          rw [hword] at hfin
          have : r'.length = 0 := by omega
          exact List.eq_nil_of_length_eq_zero this
        subst hr'
        rw [handle_char_match_complete st ch ch nw hp hsp hT rfl hfin]
        simp only [List.map_nil]
        rw [run_inputs]
        obtain ⟨hsc, hwords, hcombo, hpos⟩ := complete_word_fields ({ st with typed_text := st.typed_text ++ [ch.toLower], chars_typed := st.chars_typed + 1, chars_correct := st.chars_correct + 1, car := st.car.move_by_progress (((st.typed_text.length + 1 : ℚ) / (st.current_word.length : ℚ)) * (2/100)) }) nw
        have hfq : (st.typed_text.length : ℚ) + 1 = (w.length : ℚ) := by
          rw [hword] at hfin
          exact_mod_cast hfin
        have htot : ((w.length : ℚ) * ((w.length : ℚ) + 1)
            - (st.typed_text.length : ℚ) * ((st.typed_text.length : ℚ) + 1))
              / (100 * (w.length : ℚ)) = 1/50 := by
          rw [← hfq]
          field_simp
          ring
        have hinc : ((st.typed_text.length : ℚ) + 1)
            / ((st.current_word.length : ℚ)) * (2/100) = 1/50 := by
          rw [hword, hfq, div_self (ne_of_gt hLq0)]
          norm_num
        refine ⟨?_, hwords, ?_, hcombo⟩
        swap
        · rw [← hword]
          exact hsc
        rw [hpos, Car.apply_boost_position, Car.move_by_progress_position]
        have hle1 : st.car.position
            + ((st.typed_text.length : ℚ) + 1)
              / ((st.current_word.length : ℚ)) * (2/100) ≤ 1 := by
          rw [hinc]
          rw [htot] at hclamp
          linarith
        rw [min_eq_right hle1]
        have hle2 : st.car.position
            + ((st.typed_text.length : ℚ) + 1)
              / ((st.current_word.length : ℚ)) * (2/100) + 5/100 ≤ 1 := by
          rw [hinc]
          rw [htot] at hclamp
          linarith
        rw [min_eq_right hle2, hinc, htot]
        ring
      · -- more characters remain after this one
        rw [handle_char_match_step st ch ch nw hp hsp hT rfl hfin]
        have hjle : st.typed_text.length + 1 < w.length := by
          rw [hword] at hfin
          omega
        have hrest0 : (0:ℚ) ≤ ((w.length : ℚ) * ((w.length : ℚ) + 1)
            - ((st.typed_text.length : ℚ) + 1) * (((st.typed_text.length : ℚ) + 1) + 1))
              / (100 * (w.length : ℚ)) := by
          apply c1_rest_nonneg
          · positivity
          · have : st.typed_text.length + 1 ≤ w.length := le_of_lt hjle
            exact_mod_cast this
          · exact hLq0
        have hstep := c1_sum_step (w.length : ℚ) (st.typed_text.length : ℚ)
          (ne_of_gt hLq0)
        have hincle : st.car.position
            + ((st.typed_text.length : ℚ) + 1)
              / ((st.current_word.length : ℚ)) * (2/100) ≤ 1 := by
          rw [hword]
          linarith
        have H := ih ({ st with typed_text := st.typed_text ++ [ch.toLower], chars_typed := st.chars_typed + 1, chars_correct := st.chars_correct + 1, car := st.car.move_by_progress (((st.typed_text.length + 1 : ℚ) / (st.current_word.length : ℚ)) * (2/100)) })
          hover hword
          (by
            simp only [List.length_append, List.length_cons, List.length_nil]
            rw [← List.tail_drop, hdrop]
            rfl)
          (by
            intro hr0
            have hlen := congrArg List.length hdrop
            rw [List.length_drop, hr0] at hlen
            simp only [List.length_cons, List.length_nil] at hlen
            omega)
          (fun c hc => hprint c (List.mem_cons_of_mem ch hc))
          (by
            simp only [List.length_append, List.length_cons, List.length_nil,
              Car.move_by_progress_position]
            rw [min_eq_right hincle]
            push_cast
            rw [hword]
            linarith)
        simp only [List.length_append, List.length_cons, List.length_nil,
          Car.move_by_progress_position] at H
        obtain ⟨H1, H2, H3, H4⟩ := H
        refine ⟨?_, H2, H3, H4⟩
        rw [H1, min_eq_right hincle]
        push_cast
        rw [hword]
        linarith

/-- Claim C1 (amended): a correctly typed character advances Progress by
`(k/L) * 0.02` where `k` is the typed-prefix length including the new
character and `L` the word length (clamped at 1.0) — not by `0.02/L` — so
typing a word of length `L` correctly from first to last character
increases Progress by `0.02 * (L+1)/2` in total, plus the separate 0.05
completion boost; for "house" (`L = 5`) the per-character total is 0.06
and the final Progress is 0.11, while `words_completed` becomes 1 and the
score increases by 55 as the claim's scenario states. -/
theorem c1_progress_amended :
    (∀ (st : GameSt) (u t : Char) (nw : List Char),
      isPrintableChar u = true → u ≠ ' ' →
      st.current_word.get? st.typed_text.length = some t →
      u.toLower = t.toLower →
      st.typed_text.length + 1 ≠ st.current_word.length →
      (handle_game_input st (GKey.chr u) nw).1.car.position
        = min 1 (st.car.position
            + ((st.typed_text.length : ℚ) + 1) / (st.current_word.length : ℚ)
              * (2/100))) ∧
    (∀ (w nw : List Char),
      1 ≤ w.length → w.length ≤ 94 →
      (∀ c ∈ w, isPrintableChar c = true ∧ c ≠ ' ') →
      (run_inputs (GameSt.fresh w) (w.map (fun ch => (GKey.chr ch, nw)))).car.position
        = ((w.length : ℚ) + 1) / 100 + 1/20) ∧
    ((run_inputs (GameSt.fresh "house".data)
        ("house".data.map (fun ch => (GKey.chr ch, [])))).car.position = 11/100 ∧
     (run_inputs (GameSt.fresh "house".data)
        ("house".data.map (fun ch => (GKey.chr ch, [])))).score = 55 ∧
     (run_inputs (GameSt.fresh "house".data)
        ("house".data.map (fun ch => (GKey.chr ch, [])))).words_completed = 1) := by
  refine ⟨?_, ?_, ?_⟩
  · intro st u t nw hp hsp hT heq hfin
    rw [handle_char_match_step st u t nw hp hsp hT heq hfin]
    rfl
  · intro w nw h1 h94 hprint
    have hLpos : 0 < w.length := h1
    have hLq0 : (0:ℚ) < (w.length : ℚ) := by exact_mod_cast hLpos
    have hne : w ≠ [] := by
      intro h0
      rw [h0] at h1
      simp at h1
    have hcast94 : (w.length : ℚ) ≤ 94 := by exact_mod_cast h94
    have hsimp : ((w.length : ℚ) * ((w.length : ℚ) + 1)
        - ((0:ℚ)) * (((0:ℚ)) + 1)) / (100 * (w.length : ℚ))
          = ((w.length : ℚ) + 1)/100 := by
      field_simp
      ring
    have H := run_word_aux w nw w (GameSt.fresh w) rfl rfl
      (by simp [GameSt.fresh])
      hne hprint
      (by
        simp only [GameSt.fresh, List.length_nil, Nat.cast_zero, Car.init]
        rw [hsimp]
        linarith)
    rw [H.1]
    simp only [GameSt.fresh, List.length_nil, Nat.cast_zero, Car.init]
    rw [hsimp]
    ring
  · have H := run_word_aux "house".data [] "house".data
      (GameSt.fresh "house".data) rfl rfl
      (by simp [GameSt.fresh])
      (by decide) (by decide)
      (by
        simp only [GameSt.fresh, List.length_nil, Nat.cast_zero, Car.init,
          show "house".data.length = 5 from rfl]
        norm_num)
    refine ⟨?_, ?_, ?_⟩
    · rw [H.1]
      simp only [GameSt.fresh, List.length_nil, Nat.cast_zero, Car.init,
        show "house".data.length = 5 from rfl]
      norm_num
    · rw [H.2.2.1]
      decide
    · rw [H.2.1]
      decide

/-- Witness for C1 at the word "cat". -/
theorem c1_progress_amended_witness :
    (run_inputs (GameSt.fresh "cat".data)
        ("cat".data.map (fun ch => (GKey.chr ch, [])))).car.position
      = (("cat".data.length : ℚ) + 1) / 100 + 1/20 :=
  c1_progress_amended.2.1 "cat".data [] (by decide) (by decide) (by decide)

/-- Counterexample for C1 as stated: after two correct characters of
"house" the code's Progress is 3/250 = 0.012, not the 2·(0.02/5) = 0.008
the claim predicts. -/
theorem c1_counterexample :
    (run_inputs (GameSt.fresh "house".data)
        [(GKey.chr 'h', []), (GKey.chr 'o', [])]).car.position = 3/250 ∧
    (3/250 : ℚ) ≠ 2 * ((2/100) / 5) := by
  refine ⟨?_, by norm_num⟩
  norm_num +decide [run_inputs, handle_game_input, GameSt.fresh, Car.init,
    Car.move_by_progress, isPrintableChar, min_def]

/- ===================== Claim C7 ===================== -/

theorem add_score_scores (lb : Leaderboard) (name : List Char) (score : ℤ)
    (wpm accuracy : ℚ) (difficulty date : String) (ts : ℚ) :
    (lb.add_score name score wpm accuracy difficulty date ts).1.scores
      = (List.insertionSort score_desc
          (lb.scores ++ [mk_score_entry name score wpm accuracy difficulty date ts])).take
            max_entries := rfl

theorem import_scores_merge_scores (lb : Leaderboard) (imported : List RawScore)
    (nd : String) (nts : ℚ) :
    (lb.import_scores imported true nd nts).1.scores
      = (List.insertionSort score_desc
          (dedup_scores [] (lb.scores ++ validate_scores nd nts imported))).take
            max_entries := rfl

theorem import_scores_replace_scores (lb : Leaderboard) (imported : List RawScore)
    (nd : String) (nts : ℚ) :
    (lb.import_scores imported false nd nts).1.scores
      = validate_scores nd nts imported := rfl

theorem sorted_take_insertionSort (l : List ScoreRecord) (n : ℕ) :
    List.Sorted score_desc ((List.insertionSort score_desc l).take n) :=
  List.Pairwise.sublist (List.take_sublist n _)
    (List.sorted_insertionSort score_desc l)

theorem length_take_le_max (l : List ScoreRecord) :
    ((List.insertionSort score_desc l).take max_entries).length ≤ max_entries := by
  rw [List.length_take]
  exact min_le_left _ _

/-- Claim C7 (amended): after `add_score`, and after `import_scores` with
`merge=True`, the stored list is sorted by score descending and holds at
most 100 entries; `add_score` on a full board keeps exactly 100 entries and
every record it drops scores no higher than every record it keeps.
`import_scores` with `merge=False`, however, replaces the stored list with
the validated imported records as given — unsorted and untrimmed. -/
theorem c7_leaderboard_amended :
    (∀ (lb : Leaderboard) (name : List Char) (score : ℤ) (wpm accuracy : ℚ)
        (difficulty date : String) (ts : ℚ),
      List.Sorted score_desc
          ((lb.add_score name score wpm accuracy difficulty date ts).1.scores) ∧
      ((lb.add_score name score wpm accuracy difficulty date ts).1.scores).length
          ≤ max_entries) ∧
    (∀ (lb : Leaderboard) (imported : List RawScore) (nd : String) (nts : ℚ),
      List.Sorted score_desc ((lb.import_scores imported true nd nts).1.scores) ∧
      ((lb.import_scores imported true nd nts).1.scores).length ≤ max_entries) ∧
    (∀ (lb : Leaderboard) (name : List Char) (score : ℤ) (wpm accuracy : ℚ)
        (difficulty date : String) (ts : ℚ),
      lb.scores.length = max_entries →
      ((lb.add_score name score wpm accuracy difficulty date ts).1.scores).length
          = max_entries ∧
      ∃ dropped : List ScoreRecord,
        (lb.scores ++ [mk_score_entry name score wpm accuracy difficulty date ts]).Perm
          ((lb.add_score name score wpm accuracy difficulty date ts).1.scores
            ++ dropped) ∧
        ∀ d ∈ dropped,
          ∀ q ∈ (lb.add_score name score wpm accuracy difficulty date ts).1.scores,
            d.score ≤ q.score) := by
  refine ⟨?_, ?_, ?_⟩
  · intro lb name score wpm accuracy difficulty date ts
    rw [add_score_scores]
    exact ⟨sorted_take_insertionSort _ _, length_take_le_max _⟩
  · intro lb imported nd nts
    rw [import_scores_merge_scores]
    exact ⟨sorted_take_insertionSort _ _, length_take_le_max _⟩
  · intro lb name score wpm accuracy difficulty date ts hfull
    rw [add_score_scores]
    have hperm := List.perm_insertionSort score_desc
      (lb.scores ++ [mk_score_entry name score wpm accuracy difficulty date ts])
    have hlen : (List.insertionSort score_desc
        (lb.scores ++ [mk_score_entry name score wpm accuracy difficulty date ts])).length
          = max_entries + 1 := by
      rw [hperm.length_eq, List.length_append, hfull]
      rfl
    constructor
    · rw [List.length_take, hlen]
      rfl
    · refine ⟨(List.insertionSort score_desc
        (lb.scores ++ [mk_score_entry name score wpm accuracy difficulty date ts])).drop
          max_entries, ?_, ?_⟩
      · rw [List.take_append_drop]
        exact hperm.symm
      · have hs := List.sorted_insertionSort score_desc
          (lb.scores ++ [mk_score_entry name score wpm accuracy difficulty date ts])
        rw [← List.take_append_drop max_entries (List.insertionSort score_desc
          (lb.scores ++ [mk_score_entry name score wpm accuracy difficulty date ts]))] at hs
        have h3 := (List.pairwise_append.mp hs).2.2
        intro d hd q hq
        exact h3 q hq d hd

/-- Witness for C7 at a board holding 100 copies of one record. -/
theorem c7_leaderboard_amended_witness :
    (((⟨List.replicate 100 ⟨['x'], 5, 0, 0, "normal", "d", 0⟩⟩ : Leaderboard).add_score
        ['a'] 0 0 0 "normal" "d" 0).1.scores).length = max_entries :=
  (c7_leaderboard_amended.2.2 ⟨List.replicate 100 ⟨['x'], 5, 0, 0, "normal", "d", 0⟩⟩
    ['a'] 0 0 0 "normal" "d" 0 (by simp [max_entries])).1

/-- Counterexample for C7 as stated: `import_scores` with `merge=False`
stores the imported records as validated, so importing scores 1 then 2
leaves a list that is not sorted descending. -/
theorem c7_counterexample :
    ¬ List.Sorted score_desc
        ((Leaderboard.import_scores ⟨[]⟩
          [⟨some ['a'], some 1, some 0, none, some 0, none, none, some 0⟩,
           ⟨some ['b'], some 2, some 0, none, some 0, none, none, some 0⟩]
          false "d" 0).1.scores) := by
  decide

/- ===================== Claim C8 ===================== -/

theorem jlookup_jupdate_ne (d : List (String × JVal)) (key k : String) (v : JVal)
    (h : k ≠ key) : jlookup (jupdate d key v) k = jlookup d k := by
  induction d with
  | nil => rfl
  | cons p rest ih =>
      obtain ⟨pk, pv⟩ := p
      by_cases hpk : pk = key
      · rw [jupdate, if_pos hpk, jlookup, jlookup]
        have : ¬ pk = k := by rw [hpk]; exact fun hh => h hh.symm
        rw [if_neg this, if_neg this]
      · rw [jupdate, if_neg hpk, jlookup, jlookup]
        by_cases hpkk : pk = k
        · rw [if_pos hpkk, if_pos hpkk]
        · rw [if_neg hpkk, if_neg hpkk]
          exact ih

theorem jlookup_jupdate_self (d : List (String × JVal)) (key : String) (v w : JVal)
    (h : jlookup d key = some w) : jlookup (jupdate d key v) key = some v := by
  induction d with
  | nil => cases h
  | cons p rest ih =>
      obtain ⟨pk, pv⟩ := p
      by_cases hpk : pk = key
      · rw [jupdate, if_pos hpk, jlookup, if_pos hpk]
      · rw [jlookup, if_neg hpk] at h
        rw [jupdate, if_neg hpk, jlookup, if_neg hpk]
        exact ih h

theorem jlookup_append_ne (d : List (String × JVal)) (key k : String) (v : JVal)
    (h : k ≠ key) : jlookup (d ++ [(key, v)]) k = jlookup d k := by
  induction d with
  | nil =>
      rw [List.nil_append, jlookup, jlookup]
      have : ¬ key = k := fun hh => h hh.symm
      rw [if_neg this]
      rfl
  | cons p rest ih =>
      obtain ⟨pk, pv⟩ := p
      rw [List.cons_append, jlookup, jlookup]
      by_cases hpk : pk = k
      · rw [if_pos hpk, if_pos hpk]
      · rw [if_neg hpk, if_neg hpk]
        exact ih

theorem jlookup_append_self (d : List (String × JVal)) (key : String) (v : JVal)
    (h : jlookup d key = none) : jlookup (d ++ [(key, v)]) key = some v := by
  induction d with
  | nil => simp [jlookup]
  | cons p rest ih =>
      obtain ⟨pk, pv⟩ := p
      rw [jlookup] at h
      by_cases hpk : pk = key
      · rw [if_pos hpk] at h
        cases h
      · rw [if_neg hpk] at h
        rw [List.cons_append, jlookup, if_neg hpk]
        exact ih h


theorem merge_settings_nil (d : List (String × JVal)) : merge_settings d [] = d := by
  rw [merge_settings]

theorem merge_settings_cons (d : List (String × JVal)) (key : String)
    (value : JVal) (rest : List (String × JVal)) :
    merge_settings d ((key, value) :: rest)
      = merge_settings
          (merge_decide d key value
            (merge_settings (objEntriesO (jlookup d key)) (objEntries value)))
          rest := by
  rw [merge_settings]

theorem jlookup_merge_decide_ne (d : List (String × JVal)) (key k : String)
    (value : JVal) (sub : List (String × JVal)) (h : k ≠ key) :
    jlookup (merge_decide d key value sub) k = jlookup d k := by
  cases hdl : jlookup d key with
  | none =>
      have he : merge_decide d key value sub = d ++ [(key, value)] := by
        rw [merge_decide.eq_def, hdl]
      rw [he]
      exact jlookup_append_ne d key k _ h
  | some w =>
      cases w with
      | obj dv =>
          cases value with
          | obj lv =>
              have he : merge_decide d key (JVal.obj lv) sub
                  = jupdate d key (JVal.obj sub) := by
                rw [merge_decide.eq_def, hdl]
              rw [he]
              exact jlookup_jupdate_ne d key k _ h
          | prim s =>
              have he : merge_decide d key (JVal.prim s) sub
                  = jupdate d key (JVal.prim s) := by
                rw [merge_decide.eq_def, hdl]
              rw [he]
              exact jlookup_jupdate_ne d key k _ h
      | prim ps =>
          have he : merge_decide d key value sub = jupdate d key value := by
            rw [merge_decide.eq_def, hdl]
          rw [he]
          exact jlookup_jupdate_ne d key k _ h


theorem jlookup_merge_decide_prim (d : List (String × JVal)) (key : String)
    (s : String) (sub : List (String × JVal)) :
    jlookup (merge_decide d key (JVal.prim s) sub) key = some (JVal.prim s) := by
  cases hdl : jlookup d key with
  | none =>
      have he : merge_decide d key (JVal.prim s) sub = d ++ [(key, JVal.prim s)] := by
        rw [merge_decide.eq_def, hdl]
      rw [he]
      exact jlookup_append_self d key _ hdl
  | some w =>
      have he : merge_decide d key (JVal.prim s) sub = jupdate d key (JVal.prim s) := by
        rw [merge_decide.eq_def, hdl]
        cases w <;> rfl
      rw [he]
      exact jlookup_jupdate_self d key _ w hdl

theorem jlookup_merge_decide_none (d : List (String × JVal)) (key : String)
    (value : JVal) (sub : List (String × JVal))
    (h : jlookup d key = none) :
    jlookup (merge_decide d key value sub) key = some value := by
  have he : merge_decide d key value sub = d ++ [(key, value)] := by
    rw [merge_decide.eq_def, h]
  rw [he]
  exact jlookup_append_self d key _ h

theorem jlookup_merge_untouched (l : List (String × JVal)) :
    ∀ (d : List (String × JVal)) (k : String), k ∉ l.map Prod.fst →
      jlookup (merge_settings d l) k = jlookup d k := by
  induction l with
  | nil =>
      intro d k _
      rw [merge_settings_nil]
  | cons p rest ih =>
      obtain ⟨key, value⟩ := p
      intro d k hk
      simp only [List.map_cons, List.mem_cons] at hk
      push_neg at hk
      obtain ⟨hkne, hkr⟩ := hk
      rw [merge_settings_cons, ih _ k hkr]
      exact jlookup_merge_decide_ne d key k _ _ hkne

theorem jlookup_merge_prim (l : List (String × JVal)) :
    ∀ (d : List (String × JVal)) (k s : String), (l.map Prod.fst).Nodup →
      (k, JVal.prim s) ∈ l →
      jlookup (merge_settings d l) k = some (JVal.prim s) := by
  induction l with
  | nil =>
      intro d k s _ hmem
      cases hmem
  | cons p rest ih =>
      obtain ⟨key, value⟩ := p
      intro d k s hnd hmem
      simp only [List.map_cons, List.nodup_cons] at hnd
      obtain ⟨hknotin, hndr⟩ := hnd
      rw [merge_settings_cons]
      rcases List.mem_cons.mp hmem with hhd | htl
      · have hk : k = key := congrArg Prod.fst hhd
        have hv : value = JVal.prim s := (congrArg Prod.snd hhd).symm
        subst hk
        subst hv
        rw [jlookup_merge_untouched rest _ k hknotin]
        exact jlookup_merge_decide_prim d k s _
      · exact ih _ k s hndr htl

theorem jlookup_merge_new (l : List (String × JVal)) :
    ∀ (d : List (String × JVal)) (k : String) (v : JVal), (l.map Prod.fst).Nodup →
      (k, v) ∈ l → jlookup d k = none →
      jlookup (merge_settings d l) k = some v := by
  induction l with
  | nil =>
      intro d k v _ hmem _
      cases hmem
  | cons p rest ih =>
      obtain ⟨key, value⟩ := p
      intro d k v hnd hmem hnone
      simp only [List.map_cons, List.nodup_cons] at hnd
      obtain ⟨hknotin, hndr⟩ := hnd
      rw [merge_settings_cons]
      rcases List.mem_cons.mp hmem with hhd | htl
      · have hk : k = key := congrArg Prod.fst hhd
        have hv : value = v := (congrArg Prod.snd hhd).symm
        subst hk
        subst hv
        rw [jlookup_merge_untouched rest _ k hknotin]
        exact jlookup_merge_decide_none d k value _ hnone
      · have hkne : k ≠ key := by
          intro hkk
          apply hknotin
          rw [← hkk]
          exact List.mem_map_of_mem Prod.fst htl
        apply ih _ k v hndr htl
        rw [jlookup_merge_decide_ne d key k _ _ hkne]
        exact hnone

theorem objEntriesO_obj (e : List (String × JVal)) :
    objEntriesO (some (JVal.obj e)) = e := rfl

theorem objEntries_obj (e : List (String × JVal)) :
    objEntries (JVal.obj e) = e := rfl

theorem jlookup_merge_decide_obj (d : List (String × JVal)) (key : String)
    (dv lv sub : List (String × JVal))
    (h : jlookup d key = some (JVal.obj dv)) :
    jlookup (merge_decide d key (JVal.obj lv) sub) key = some (JVal.obj sub) := by
  have he : merge_decide d key (JVal.obj lv) sub = jupdate d key (JVal.obj sub) := by
    rw [merge_decide.eq_def, h]
  rw [he]
  exact jlookup_jupdate_self d key _ _ h

theorem jlookup_merge_obj (l : List (String × JVal)) :
    ∀ (d : List (String × JVal)) (k : String) (dv lv : List (String × JVal)),
      (l.map Prod.fst).Nodup →
      jlookup d k = some (JVal.obj dv) →
      (k, JVal.obj lv) ∈ l →
      jlookup (merge_settings d l) k
        = some (JVal.obj (merge_settings dv lv)) := by
  induction l with
  | nil =>
      intro d k dv lv _ _ hmem
      cases hmem
  | cons p rest ih =>
      obtain ⟨key, value⟩ := p
      intro d k dv lv hnd hdk hmem
      simp only [List.map_cons, List.nodup_cons] at hnd
      obtain ⟨hknotin, hndr⟩ := hnd
      rw [merge_settings_cons]
      rcases List.mem_cons.mp hmem with hhd | htl
      · have hk : k = key := congrArg Prod.fst hhd
        have hv : value = JVal.obj lv := (congrArg Prod.snd hhd).symm
        subst hk
        subst hv
        rw [jlookup_merge_untouched rest _ k hknotin]
        rw [hdk, objEntriesO_obj, objEntries_obj]
        exact jlookup_merge_decide_obj d k dv lv _ hdk
      · have hkne : k ≠ key := by
          intro hkk
          apply hknotin
          rw [← hkk]
          exact List.mem_map_of_mem Prod.fst htl
        apply ih _ k dv lv hndr _ htl
        rw [jlookup_merge_decide_ne d key k _ _ hkne]
        exact hdk

/-- Claim C8: for nested dictionaries `defaults` and `loaded` (with
distinct keys at each dict level touched, as Python dicts guarantee), the
settings merge is a recursive deep-union: keys absent from `loaded` keep
their default values, loaded leaf values override whatever the defaults
held, keys that exist only in `loaded` are preserved, and a key holding a
dict on both sides is replaced by the recursive merge of the two
sub-dicts — so, two levels deep, a default sub-key missing from the
loaded category survives with its default value, while a loaded sub-leaf
overrides the default one.  (Since the first four parts hold for all
`d`, `l`, they characterise the merge at every nesting depth.) -/
theorem c8_merge_settings (d l : List (String × JVal))
    (hnd : (l.map Prod.fst).Nodup) :
    (∀ k : String, k ∉ l.map Prod.fst →
      jlookup (merge_settings d l) k = jlookup d k) ∧
    (∀ (k s : String), (k, JVal.prim s) ∈ l →
      jlookup (merge_settings d l) k = some (JVal.prim s)) ∧
    (∀ (k : String) (v : JVal), (k, v) ∈ l → jlookup d k = none →
      jlookup (merge_settings d l) k = some v) ∧
    (∀ (k : String) (dv lv : List (String × JVal)),
      jlookup d k = some (JVal.obj dv) → (k, JVal.obj lv) ∈ l →
      jlookup (merge_settings d l) k
        = some (JVal.obj (merge_settings dv lv))) ∧
    (∀ (k kk : String) (dv lv : List (String × JVal)) (w : JVal),
      jlookup d k = some (JVal.obj dv) → (k, JVal.obj lv) ∈ l →
      kk ∉ lv.map Prod.fst → jlookup dv kk = some w →
      ∃ m, jlookup (merge_settings d l) k = some (JVal.obj m) ∧
        jlookup m kk = some w) ∧
    (∀ (k kk s : String) (dv lv : List (String × JVal)),
      jlookup d k = some (JVal.obj dv) → (k, JVal.obj lv) ∈ l →
      (lv.map Prod.fst).Nodup → (kk, JVal.prim s) ∈ lv →
      ∃ m, jlookup (merge_settings d l) k = some (JVal.obj m) ∧
        jlookup m kk = some (JVal.prim s)) := by
  refine ⟨fun k hk => jlookup_merge_untouched l d k hk,
    fun k s hm => jlookup_merge_prim l d k s hnd hm,
    fun k v hm hn => jlookup_merge_new l d k v hnd hm hn,
    fun k dv lv hdk hm => jlookup_merge_obj l d k dv lv hnd hdk hm,
    ?_, ?_⟩
  · intro k kk dv lv w hdk hm hkk hw
    refine ⟨merge_settings dv lv,
      jlookup_merge_obj l d k dv lv hnd hdk hm, ?_⟩
    rw [jlookup_merge_untouched lv dv kk hkk]
    exact hw
  · intro k kk s dv lv hdk hm hndlv hmm
    exact ⟨merge_settings dv lv,
      jlookup_merge_obj l d k dv lv hnd hdk hm,
      jlookup_merge_prim lv dv kk s hndlv hmm⟩

/-- Witness for C8 on a two-level settings tree: the loaded category
merges recursively into the default one — the loaded sub-leaf overrides,
the default-only sub-key survives — and an unknown top-level key is
preserved. -/
theorem c8_merge_settings_witness :
    (∃ m, jlookup (merge_settings
        [("audio", JVal.obj [("volume", JVal.prim "0.7"),
                             ("mute", JVal.prim "false")])]
        [("audio", JVal.obj [("volume", JVal.prim "0.9")]),
         ("extra", JVal.prim "2")]) "audio" = some (JVal.obj m) ∧
      jlookup m "mute" = some (JVal.prim "false")) ∧
    (∃ m, jlookup (merge_settings
        [("audio", JVal.obj [("volume", JVal.prim "0.7"),
                             ("mute", JVal.prim "false")])]
        [("audio", JVal.obj [("volume", JVal.prim "0.9")]),
         ("extra", JVal.prim "2")]) "audio" = some (JVal.obj m) ∧
      jlookup m "volume" = some (JVal.prim "0.9")) ∧
    jlookup (merge_settings
        [("audio", JVal.obj [("volume", JVal.prim "0.7"),
                             ("mute", JVal.prim "false")])]
        [("audio", JVal.obj [("volume", JVal.prim "0.9")]),
         ("extra", JVal.prim "2")]) "extra" = some (JVal.prim "2") := by
  have h := c8_merge_settings
    [("audio", JVal.obj [("volume", JVal.prim "0.7"),
                         ("mute", JVal.prim "false")])]
    [("audio", JVal.obj [("volume", JVal.prim "0.9")]),
     ("extra", JVal.prim "2")] (by decide)
  refine ⟨?_, ?_, ?_⟩
  · exact h.2.2.2.2.1 "audio" "mute"
      [("volume", JVal.prim "0.7"), ("mute", JVal.prim "false")]
      [("volume", JVal.prim "0.9")] (JVal.prim "false")
      rfl (List.mem_cons_self _ _) (by decide) rfl
  · exact h.2.2.2.2.2 "audio" "volume" "0.9"
      [("volume", JVal.prim "0.7"), ("mute", JVal.prim "false")]
      [("volume", JVal.prim "0.9")]
      rfl (List.mem_cons_self _ _) (by decide) (List.mem_cons_self _ _)
  · exact h.2.2.1 "extra" (JVal.prim "2")
      (List.mem_cons_of_mem _ (List.mem_cons_self _ _)) rfl
